import Mathlib

/-!
Formal model of the wikiserver step API (src/server/server.js).

The server is an Express application exposing CRUD operations over a single
collection of step records persisted as a JSON array in a flat file.  We give
a shallow embedding: JSON/JavaScript runtime values are the inductive type
JVal, each request handler becomes a pure function from the loaded step
sequence and the request data to an HTTP status, a response body and the
sequence that is persisted back, and a whole server run is a fold of such
requests starting from the empty collection.
-/

/-- A JSON-style JavaScript runtime value.  vnull stands for the JSON null
(and, where a field simply is not there, absence is modelled by Option
rather than by a constructor).  Numbers are modelled as integers; the claims
under study never depend on non-integer arithmetic. -/
inductive JVal where
  | vnull : JVal
  | vstr (s : String) : JVal
  | vnum (n : Int) : JVal
  | vbool (b : Bool) : JVal
  | varr (elems : List JVal) : JVal
  | vobj (fields : List (String × JVal)) : JVal

mutual

/-- JavaScript string coercion String(v): strings are themselves, numbers
print in decimal, booleans print as true/false, null prints as "null",
arrays join their elements with commas (null elements joining as the empty
string) and plain objects print as "[object Object]". -/
def jstr : JVal → String
  | .vnull => "null"
  | .vstr s => s
  | .vnum n => toString n
  | .vbool b => if b then "true" else "false"
  | .varr xs => jarrStr xs
  | .vobj _ => "[object Object]"

/-- Array.prototype.join with separator ",", as used by String(array). -/
def jarrStr : List JVal → String
  | [] => ""
  | x :: xs =>
    (match x with | .vnull => "" | v => jstr v)
      ++ (match xs with | [] => "" | _ :: _ => ",") ++ jarrStr xs

end

/-- String.prototype.trim: drop whitespace from both ends of the string.
Modelled on the underlying character list so that it computes by kernel
reduction. -/
def jsTrim (s : String) : String :=
  ⟨((s.data.dropWhile Char.isWhitespace).reverse.dropWhile Char.isWhitespace).reverse⟩

/-- Property read o.k on an object given by its field list. -/
def getF (fields : List (String × JVal)) (k : String) : Option JVal :=
  (fields.find? (fun p => p.1 == k)).map (fun p => p.2)

/-- Optional-chaining property read v?.k: objects yield their binding,
every other value (including null) yields undefined. -/
def jget : JVal → String → Option JVal
  | .vobj fs, k => getF fs k
  | _, _ => none

/-- v?.k when it passes the loose test v?.k != null, which rejects both a
missing binding and an explicit null. -/
def jgetNN (v : JVal) (k : String) : Option JVal :=
  match jget v k with
  | some .vnull => none
  | o => o

/-- JavaScript truthiness of a present value: null, the empty string, zero
and false are falsy, every array and object is truthy. -/
def truthy : JVal → Bool
  | .vnull => false
  | .vstr s => !(s == "")
  | .vnum n => !(n == 0)
  | .vbool b => b
  | .varr _ => true
  | .vobj _ => true

/-- Truthiness of a possibly-absent value: undefined is falsy. -/
def truthyO : Option JVal → Bool
  | none => false
  | some v => truthy v

/-- String(v) applied to a possibly-absent value (String(undefined) is the
string "undefined"). -/
def strOf : Option JVal → String
  | none => "undefined"
  | some v => jstr v

/-- A normalized variable definition as produced by normalizeVars: key and
label are the trimmed coercions, placeholder is kept only when supplied. -/
structure VarDef where
  key : String
  label : String
  placeholder : Option String
deriving DecidableEq

/-- The element coercion inside normalizeVars: key and label are stringified
and trimmed (empty when null or absent), placeholder is stringified when
present and left absent otherwise. -/
def coerceVar (v : JVal) : VarDef :=
  { key := match jgetNN v "key" with
      | some w => jsTrim (jstr w)
      | none => ""
    label := match jgetNN v "label" with
      | some w => jsTrim (jstr w)
      | none => ""
    placeholder := (jgetNN v "placeholder").map jstr }

/-- normalizeVars from server.js: a value that is not a non-empty array
yields undefined; otherwise each element is coerced, elements with an empty
trimmed key or label are discarded, and an empty remainder again yields
undefined. -/
def normalizeVars (vars : JVal) : Option (List VarDef) :=
  match vars with
  | .varr xs =>
    if xs.length = 0 then none
    else
      let cleaned := (xs.map coerceVar).filter
        (fun v => decide (0 < v.key.length) && decide (0 < v.label.length))
      if cleaned.length = 0 then none else some cleaned
  | _ => none

/-- normalizeVars applied to a possibly-absent field (normalizeVars of
undefined is undefined, since undefined is not an array). -/
def normalizeVarsO : Option JVal → Option (List VarDef)
  | none => none
  | some v => normalizeVars v

/-- The stored JSON shape of one normalized variable definition. -/
def VarDef.toJVal (d : VarDef) : JVal :=
  .vobj ([("key", .vstr d.key), ("label", .vstr d.label)]
    ++ (match d.placeholder with
        | some p => [("placeholder", .vstr p)]
        | none => []))

/-- The stored JSON shape of a normalized vars sequence. -/
def varsToJVal (ds : List VarDef) : JVal :=
  .varr (ds.map VarDef.toJVal)

example : normalizeVars (.varr []) = none := rfl

example :
    normalizeVars (.varr [.vobj [("key", .vstr " p "), ("label", .vstr "Path")]])
      = some [⟨"p", "Path", none⟩] := rfl

/-- Overriding one key of an object: the binding is replaced in place when
the key is present and appended otherwise, matching JavaScript object key
order under assignment and literal extension. -/
def setF (fs : List (String × JVal)) (k : String) (v : JVal) : List (String × JVal) :=
  if fs.any (fun p => p.1 == k) then fs.map (fun p => if p.1 == k then (p.1, v) else p)
  else fs ++ [(k, v)]

/-- Removing a key from an object.  The handlers assign undefined to a key
and the subsequent JSON serialization (both of the response and of the
persisted file) drops undefined-valued keys, so the observable effect is
removal. -/
def delF (fs : List (String × JVal)) (k : String) : List (String × JVal) :=
  fs.filter (fun p => !(p.1 == k))

/-- JavaScript object spread of two objects: the keys of the first in their
order, each taking the second object's value when it also binds the key,
followed by the keys only the second binds, in their order. -/
def spreadF (a b : List (String × JVal)) : List (String × JVal) :=
  a.map (fun p => match getF b p.1 with | some v => (p.1, v) | none => p)
    ++ b.filter (fun p => !(a.any (fun q => q.1 == p.1)))

/-- newId from server.js: the decimal Date.now() milliseconds, a dash, and
the fractional hex digits of a Math.random() draw.  The clock reading and
the random draw are inputs of the model. -/
def newId (nowMs : Nat) (rndHex : String) : String :=
  Nat.repr nowMs ++ "-" ++ rndHex

/-- The 400 response body of the create and update handlers. -/
def msgRequired : JVal :=
  .vobj [("message", .vstr "title, category, icon, content are required")]

/-- The 404 response body of the update and delete handlers. -/
def msgNotFound : JVal :=
  .vobj [("message", .vstr "not found")]

/-- The inline commands coercion of the handlers: a non-empty array has its
elements stringified, anything else (absent value included) becomes
undefined. -/
def coerceCommands : Option JVal → Option JVal
  | some (.varr xs) =>
    if xs.length = 0 then none else some (.varr (xs.map (fun x => .vstr (jstr x))))
  | _ => none

/-- The comparison s.id === id used by findIndex and filter, with a string
path parameter: only a string id field equal to the parameter matches. -/
def idEq (s : JVal) (pathId : String) : Bool :=
  match jget s "id" with
  | some (.vstr t) => t == pathId
  | _ => false

/-- Outcome of one request: HTTP status, response body (none for an empty
body), and the step sequence persisted after the request (unchanged when
the handler does not save). -/
structure HttpResult where
  status : Nat
  body : Option JVal
  steps : List JVal

/-- The GET /steps handler: respond 200 with the loaded sequence. -/
def getSteps (steps : List JVal) : HttpResult :=
  { status := 200, body := some (.varr steps), steps := steps }

/-- The required-field presence check shared by the create and update
handlers: !x || !y || ... rejects exactly when some of the four fields is
falsy, i.e. passes exactly when all four are truthy. -/
def requiredOk (fs : List (String × JVal)) : Bool :=
  truthyO (getF fs "title") && truthyO (getF fs "category") &&
    truthyO (getF fs "icon") && truthyO (getF fs "content")

/-- The object built by the create handler, as its serialized field list:
keys appear in literal order and the undefined-valued optional keys
(commands, vars) are dropped, exactly as res.json and JSON.stringify drop
them. -/
def newStepFields (body : List (String × JVal))
    (nowMs : Nat) (rndHex nowIso : String) : List (String × JVal) :=
  [("id", .vstr (newId nowMs rndHex)),
    ("title", .vstr (strOf (getF body "title"))),
    ("category", .vstr (strOf (getF body "category"))),
    ("icon", .vstr (strOf (getF body "icon"))),
    ("content", .vstr (strOf (getF body "content")))]
    ++ (match coerceCommands (getF body "commands") with
        | some c => [("commands", c)]
        | none => [])
    ++ (match normalizeVarsO (getF body "vars") with
        | some ds => [("vars", varsToJVal ds)]
        | none => [])
    ++ [("createdAt", .vstr nowIso)]

/-- The POST /steps handler on the loaded sequence.  body is the parsed
request body, nowMs and rndHex feed newId, nowIso is the toISOString clock
reading used for createdAt. -/
def postSteps (steps : List JVal) (body : List (String × JVal))
    (nowMs : Nat) (rndHex nowIso : String) : HttpResult :=
  if !(requiredOk body) then
    { status := 400, body := some msgRequired, steps := steps }
  else
    { status := 201, body := some (.vobj (newStepFields body nowMs rndHex nowIso)),
      steps := .vobj (newStepFields body nowMs rndHex nowIso) :: steps }

/-- The field list of an object value (and the empty list on any other
value; the update handler only reaches this on a value that idEq matched,
which is necessarily an object). -/
def objFields : JVal → List (String × JVal)
  | .vobj fs => fs
  | _ => []

/-- The update handler's merged record: object spread of the existing
record and the patch, with id forced back to the path parameter and
updatedAt refreshed, in JavaScript literal key order. -/
def mergeStep (existing : JVal) (body : List (String × JVal))
    (pathId nowIso : String) : List (String × JVal) :=
  setF (setF (spreadF (objFields existing) body) "id" (.vstr pathId))
    "updatedAt" (.vstr nowIso)

/-- The update handler's in-place renormalization of commands and vars:
each is rewritten only when the merged record carries the key, an
undefined result dropping the key from the serialized record. -/
def renormFields (fs : List (String × JVal)) : List (String × JVal) :=
  let m1 := match getF fs "commands" with
    | none => fs
    | some c =>
      match coerceCommands (some c) with
      | some c2 => setF fs "commands" c2
      | none => delF fs "commands"
  match getF m1 "vars" with
  | none => m1
  | some v =>
    match normalizeVars v with
    | some ds => setF m1 "vars" (varsToJVal ds)
    | none => delF m1 "vars"

/-- The PUT /steps/:id handler on the loaded sequence. -/
def putSteps (steps : List JVal) (pathId : String) (body : List (String × JVal))
    (nowIso : String) : HttpResult :=
  match steps.findIdx? (fun s => idEq s pathId) with
  | none => { status := 404, body := some msgNotFound, steps := steps }
  | some idx =>
    let updated := mergeStep (steps.getD idx (.vobj [])) body pathId nowIso
    if !(requiredOk updated) then
      { status := 400, body := some msgRequired, steps := steps }
    else
      { status := 200, body := some (.vobj (renormFields updated)),
        steps := steps.set idx (.vobj (renormFields updated)) }

/-- The DELETE /steps/:id handler on the loaded sequence: filter out every
element whose id matches; when nothing was removed respond 404 without
saving, otherwise save the filtered sequence and respond 204. -/
def deleteStep (steps : List JVal) (pathId : String) : HttpResult :=
  let next := steps.filter (fun s => !(idEq s pathId))
  if next.length = steps.length then
    { status := 404, body := some msgNotFound, steps := steps }
  else
    { status := 204, body := none, steps := next }

/-- readSteps from server.js, with JSON.parse modelled by its outcome: an
Except.error is the uncaught exception JSON.parse throws on content that is
not well-formed JSON, and an Except.ok value is the parsed document.  The
function returns the elements when the document is an array, the empty
sequence when it is any other parsed value, and propagates a parse failure
unchanged because the exception is not caught. -/
def readSteps (parsed : Except String JVal) : Except String (List JVal) :=
  match parsed with
  | .error e => .error e
  | .ok (.varr xs) => .ok xs
  | .ok _ => .ok []

/-- One mutating request against the server, with the clock and randomness
readings it consumes as explicit inputs. -/
inductive Op where
  | opost (body : List (String × JVal)) (nowMs : Nat) (rndHex nowIso : String) : Op
  | oput (pathId : String) (body : List (String × JVal)) (nowIso : String) : Op
  | odel (pathId : String) : Op

/-- The persisted sequence after serving one request on a given persisted
sequence. -/
def applyOp (steps : List JVal) : Op → List JVal
  | .opost body nowMs rndHex nowIso => (postSteps steps body nowMs rndHex nowIso).steps
  | .oput pathId body nowIso => (putSteps steps pathId body nowIso).steps
  | .odel pathId => (deleteStep steps pathId).steps

/-- The persisted sequence after serving a whole request trace starting
from the empty initial collection. -/
def runOps (ops : List Op) : List JVal :=
  ops.foldl applyOp []

/-! ## The spec's own wording of vars normalization (for the refinement
claim about the Record Normalizer) -/

/-- The element coercion as the spec words it: key and label are
stringified and whitespace-trimmed, becoming the empty string when null or
absent; placeholder is stringified when present, otherwise left absent.
Written independently of the code, to be compared with coerceVar. -/
def specCoerceVar (v : JVal) : VarDef where
  key := ((jgetNN v "key").map (fun w => jsTrim (jstr w))).getD ""
  label := ((jgetNN v "label").map (fun w => jsTrim (jstr w))).getD ""
  placeholder := (jgetNN v "placeholder").map jstr

/-- Discarding, as the spec words it: elements whose trimmed key or trimmed
label is empty are dropped, the rest keep their order. -/
def specDiscard : List VarDef → List VarDef
  | [] => []
  | d :: ds => if d.key = "" ∨ d.label = "" then specDiscard ds else d :: specDiscard ds

/-- The Record Normalizer as the spec words it: a value that is not a
non-empty sequence gives absent; otherwise the elements are coerced, the
failing ones discarded, and an empty remainder again gives absent. -/
def normalizeVarsSpec : JVal → Option (List VarDef)
  | .varr (x :: xs) =>
    let kept := specDiscard ((x :: xs).map specCoerceVar)
    if kept = [] then none else some kept
  | _ => none

lemma coerceVar_eq_spec (v : JVal) : coerceVar v = specCoerceVar v := by
  cases hk : jgetNN v "key" <;> cases hl : jgetNN v "label" <;>
    simp [coerceVar, specCoerceVar, hk, hl]

lemma string_length_pos_of_ne {s : String} (h : s ≠ "") : 0 < s.length := by
  cases hs : s.data with
  | nil => exact absurd (by cases s; simp_all) h
  | cons c cs => simp [String.length, hs]

lemma keepVar_iff (d : VarDef) :
    (decide (0 < d.key.length) && decide (0 < d.label.length)) = true
      ↔ ¬(d.key = "" ∨ d.label = "") := by
  constructor
  · rintro h (h1 | h1) <;> rw [h1] at h <;> simp at h
  · intro h
    push_neg at h
    simp [string_length_pos_of_ne h.1, string_length_pos_of_ne h.2]

lemma specDiscard_eq_filter (l : List VarDef) :
    specDiscard l
      = l.filter (fun v => decide (0 < v.key.length) && decide (0 < v.label.length)) := by
  induction l with
  | nil => rfl
  | cons d ds ih =>
    by_cases h : d.key = "" ∨ d.label = ""
    · have hp : (decide (0 < d.key.length) && decide (0 < d.label.length)) = false := by
        rcases keepVar_iff d with ⟨mp, _⟩
        exact Bool.eq_false_iff.mpr (fun hb => mp hb h)

      simp [specDiscard, h, List.filter_cons, hp, ih]
    · have hp : (decide (0 < d.key.length) && decide (0 < d.label.length)) = true :=
        (keepVar_iff d).mpr h
      simp [specDiscard, h, List.filter_cons, hp, ih]

lemma normalizeVars_varr (xs : List JVal) :
    normalizeVars (.varr xs)
      = if xs.length = 0 then none
        else if ((xs.map coerceVar).filter
            (fun v => decide (0 < v.key.length) && decide (0 < v.label.length))).length = 0
          then none
          else some ((xs.map coerceVar).filter
            (fun v => decide (0 < v.key.length) && decide (0 < v.label.length))) := rfl

/-- C3: vars normalization returns absent on anything that is not a
non-empty sequence, coerces and trims key and label (empty when null or
absent), stringifies placeholder only when present, discards elements with
empty trimmed key or label preserving the order of the rest, and returns
absent when everything is discarded — i.e. it agrees everywhere with the
spec's own wording normalizeVarsSpec — and on the spec's concrete example
it keeps only the first entry. -/
theorem normalizeVars_meets_spec :
    (∀ v : JVal, normalizeVars v = normalizeVarsSpec v) ∧
      normalizeVars (.varr [.vobj [("key", .vstr "p"), ("label", .vstr "Path")],
          .vobj [("key", .vstr ""), ("label", .vstr "x")]])
        = some [⟨"p", "Path", none⟩] := by
  refine ⟨fun v => ?_, rfl⟩
  match v with
  | .vnull | .vstr _ | .vnum _ | .vbool _ | .vobj _ => rfl
  | .varr [] => rfl
  | .varr (x :: xs) =>
    have hc : coerceVar = specCoerceVar := funext coerceVar_eq_spec
    rw [normalizeVars_varr]
    simp only [normalizeVarsSpec, specDiscard_eq_filter, hc]
    simp [List.length_eq_zero]

/-! ## Object field lookup lemmas -/

lemma getF_nil (k : String) : getF [] k = none := rfl

lemma getF_cons (p : String × JVal) (ps : List (String × JVal)) (k : String) :
    getF (p :: ps) k = if (p.1 == k) = true then some p.2 else getF ps k := by
  rw [getF, getF]
  simp only [List.find?_cons]
  cases h : (p.1 == k) <;> simp [h]

lemma getF_append (a b : List (String × JVal)) (k : String) :
    getF (a ++ b) k = (getF a k).or (getF b k) := by
  rw [getF, getF, getF, List.find?_append]
  cases a.find? (fun p => p.1 == k) <;> simp

lemma getF_eq_none_of_not_any {fs : List (String × JVal)} {k : String}
    (h : fs.any (fun p => p.1 == k) = false) : getF fs k = none := by
  induction fs with
  | nil => rfl
  | cons p ps ih =>
    simp only [List.any_cons, Bool.or_eq_false_iff] at h
    rw [getF_cons, if_neg (by simp [h.1]), ih h.2]

lemma getF_replaceAll_self (fs : List (String × JVal)) (k : String) (v : JVal)
    (ha : fs.any (fun p => p.1 == k) = true) :
    getF (fs.map (fun p => if (p.1 == k) = true then (p.1, v) else p)) k = some v := by
  induction fs with
  | nil => simp at ha
  | cons p ps ih =>
    simp only [List.map_cons]
    by_cases hp : (p.1 == k) = true
    · rw [if_pos hp, getF_cons, if_pos hp]
    · rw [if_neg hp, getF_cons, if_neg hp]
      simp only [List.any_cons, hp, Bool.false_or] at ha
      exact ih ha

lemma getF_replaceAll_ne (fs : List (String × JVal)) (k k' : String) (v : JVal)
    (h : k' ≠ k) :
    getF (fs.map (fun p => if (p.1 == k) = true then (p.1, v) else p)) k'
      = getF fs k' := by
  induction fs with
  | nil => rfl
  | cons p ps ih =>
    simp only [List.map_cons]
    by_cases hp : (p.1 == k) = true
    · have hpk : p.1 = k := by simpa using hp
      have hne : (p.1 == k') = false := by
        simp only [hpk]
        exact beq_eq_false_iff_ne.mpr (fun hh => h hh.symm)
      rw [if_pos hp, getF_cons, getF_cons]
      simp only [hne, Bool.false_eq_true, if_false]
      exact ih
    · rw [if_neg hp, getF_cons, getF_cons, ih]

lemma getF_setF_self (fs : List (String × JVal)) (k : String) (v : JVal) :
    getF (setF fs k v) k = some v := by
  unfold setF
  by_cases ha : fs.any (fun p => p.1 == k) = true
  · rw [if_pos ha]
    exact getF_replaceAll_self fs k v ha
  · rw [if_neg ha, getF_append,
      getF_eq_none_of_not_any (Bool.eq_false_iff.mpr ha)]
    simp [getF_cons]

lemma getF_setF_ne (fs : List (String × JVal)) (k k' : String) (v : JVal)
    (h : k' ≠ k) : getF (setF fs k v) k' = getF fs k' := by
  unfold setF
  by_cases ha : fs.any (fun p => p.1 == k) = true
  · rw [if_pos ha]
    exact getF_replaceAll_ne fs k k' v h
  · rw [if_neg ha, getF_append]
    have h1 : getF [(k, v)] k' = none := by
      rw [getF_cons]
      simp only [beq_eq_false_iff_ne.mpr (fun hh : k = k' => h hh.symm),
        Bool.false_eq_true, if_false, getF_nil]
    rw [h1]
    cases getF fs k' <;> simp

lemma getF_some_of_any {fs : List (String × JVal)} {k : String}
    (ha : fs.any (fun p => p.1 == k) = true) : (getF fs k).isSome = true := by
  induction fs with
  | nil => simp at ha
  | cons p ps ih =>
    rw [getF_cons]
    by_cases hp : (p.1 == k) = true
    · rw [if_pos hp]
      rfl
    · rw [if_neg hp]
      simp only [List.any_cons, hp, Bool.false_or] at ha
      exact ih ha

lemma getF_delF_ne (fs : List (String × JVal)) (k k' : String)
    (h : k' ≠ k) : getF (delF fs k) k' = getF fs k' := by
  induction fs with
  | nil => rfl
  | cons p ps ih =>
    by_cases hp : (p.1 == k) = true
    · have hpk : p.1 = k := by simpa using hp
      have hne : (p.1 == k') = false := by
        simp only [hpk]
        exact beq_eq_false_iff_ne.mpr (fun hh => h hh.symm)
      rw [delF, List.filter_cons, if_neg (by simp [hp]), getF_cons, if_neg (by simp [hne])]
      exact ih
    · rw [delF, List.filter_cons, if_pos (by simp [hp]), getF_cons, getF_cons]
      by_cases hp' : (p.1 == k') = true
      · simp [hp']
      · simp only [hp', if_neg]
        exact ih

lemma getF_spread_map (a b : List (String × JVal)) (k : String)
    (ha : a.any (fun q => q.1 == k) = true) :
    getF (a.map (fun p => match getF b p.1 with | some v => (p.1, v) | none => p)) k
      = (getF b k).or (getF a k) := by
  induction a with
  | nil => simp at ha
  | cons p ps ih =>
    simp only [List.map_cons]
    cases hm : getF b p.1 with
    | some v =>
      rw [getF_cons (p.1, v), getF_cons p]
      by_cases hp : (p.1 == k) = true
      · have hpv : (((p.1, v).1 == k) = true) := hp
        have hpk : p.1 = k := by simpa using hp
        rw [if_pos hpv, if_pos hp]
        rw [hpk] at hm
        rw [hm]
        rfl
      · have hpv : (((p.1, v).1 == k) = false) := Bool.eq_false_iff.mpr hp
        rw [if_neg (by simp [hpv]), if_neg hp]
        simp only [List.any_cons, hp, Bool.false_or] at ha
        exact ih ha
    | none =>
      rw [getF_cons p, getF_cons p]
      by_cases hp : (p.1 == k) = true
      · have hpk : p.1 = k := by simpa using hp
        rw [if_pos hp, if_pos hp]
        rw [hpk] at hm
        rw [hm]
        rfl
      · rw [if_neg hp, if_neg hp]
        simp only [List.any_cons, hp, Bool.false_or] at ha
        exact ih ha

lemma getF_spread_map_none (a b : List (String × JVal)) (k : String)
    (ha : a.any (fun q => q.1 == k) = false) :
    getF (a.map (fun p => match getF b p.1 with | some v => (p.1, v) | none => p)) k
      = none := by
  induction a with
  | nil => rfl
  | cons p ps ih =>
    simp only [List.any_cons, Bool.or_eq_false_iff] at ha
    simp only [List.map_cons]
    cases hm : getF b p.1 with
    | some v =>
      rw [getF_cons (p.1, v), if_neg (by simp [ha.1])]
      exact ih ha.2
    | none =>
      rw [getF_cons p, if_neg (by simp [ha.1])]
      exact ih ha.2

lemma getF_filter_key (b : List (String × JVal)) (g : String × JVal → Bool) (k : String)
    (hg : ∀ p ∈ b, p.1 = k → g p = true) :
    getF (b.filter g) k = getF b k := by
  induction b with
  | nil => rfl
  | cons p ps ih =>
    rw [List.filter_cons]
    by_cases hgp : g p = true
    · rw [if_pos hgp, getF_cons, getF_cons]
      by_cases hp : (p.1 == k) = true
      · rw [if_pos hp, if_pos hp]
      · rw [if_neg hp, if_neg hp]
        exact ih (fun q hq => hg q (List.mem_cons_of_mem p hq))
    · rw [if_neg hgp, getF_cons]
      have hp : (p.1 == k) = false := by
        cases hc : (p.1 == k) with
        | false => rfl
        | true => exact absurd (hg p (List.mem_cons_self p ps) (by simpa using hc)) hgp
      rw [if_neg (by simp [hp])]
      exact ih (fun q hq => hg q (List.mem_cons_of_mem p hq))

lemma getF_spreadF (a b : List (String × JVal)) (k : String) :
    getF (spreadF a b) k = (getF b k).or (getF a k) := by
  rw [spreadF, getF_append]
  by_cases ha : a.any (fun q => q.1 == k) = true
  · rw [getF_spread_map a b k ha]
    cases hb : getF b k with
    | some v => simp
    | none =>
      cases hak : getF a k with
      | some w => simp
      | none =>
        have := getF_some_of_any ha
        rw [hak] at this
        simp at this
  · have ha' : a.any (fun q => q.1 == k) = false := Bool.eq_false_iff.mpr ha
    rw [getF_spread_map_none a b k ha', Option.none_or,
      getF_filter_key b _ k (fun p hp hpk => by simp [hpk, ha']),
      getF_eq_none_of_not_any ha', Option.or_none]

/-- C9: for every input value — absent is covered by normalizeVarsO,
malformed and well-formed values alike — vars normalization terminates
without error and returns either absent or a non-empty order-preserving
filtered subsequence of the coerced elements. -/
theorem normalizeVars_never_fails :
    ∀ v : JVal, normalizeVars v = none ∨
      ∃ xs kept, v = .varr xs ∧ normalizeVars v = some kept ∧ kept ≠ [] ∧
        kept.Sublist (xs.map coerceVar) := by
  intro v
  match v with
  | .vnull | .vstr _ | .vnum _ | .vbool _ | .vobj _ => exact Or.inl rfl
  | .varr xs =>
    rw [normalizeVars_varr]
    by_cases h0 : xs.length = 0
    · exact Or.inl (by simp [h0])
    · rw [if_neg h0]
      by_cases h1 : ((xs.map coerceVar).filter
          (fun v => decide (0 < v.key.length) && decide (0 < v.label.length))).length = 0
      · exact Or.inl (by simp [h1])
      · refine Or.inr ⟨xs, (xs.map coerceVar).filter
          (fun v => decide (0 < v.key.length) && decide (0 < v.label.length)),
          rfl, ?_, ?_, List.filter_sublist _⟩
        · rw [if_neg h1]
        · simpa [← List.length_eq_zero] using h1

/-! ## Handler characterization lemmas -/

lemma postSteps_fail {body : List (String × JVal)} (steps : List JVal)
    (nowMs : Nat) (rndHex nowIso : String) (h : requiredOk body = false) :
    postSteps steps body nowMs rndHex nowIso
      = { status := 400, body := some msgRequired, steps := steps } := by
  simp [postSteps, h]

lemma postSteps_ok {body : List (String × JVal)} (steps : List JVal)
    (nowMs : Nat) (rndHex nowIso : String) (h : requiredOk body = true) :
    postSteps steps body nowMs rndHex nowIso
      = { status := 201, body := some (.vobj (newStepFields body nowMs rndHex nowIso)),
          steps := .vobj (newStepFields body nowMs rndHex nowIso) :: steps } := by
  simp [postSteps, h]

lemma putSteps_notfound {steps : List JVal} {pathId : String}
    (body : List (String × JVal)) (nowIso : String)
    (h : steps.findIdx? (fun s => idEq s pathId) = none) :
    putSteps steps pathId body nowIso
      = { status := 404, body := some msgNotFound, steps := steps } := by
  simp [putSteps, h]

lemma putSteps_invalid {steps : List JVal} {pathId : String} {idx : Nat}
    {body : List (String × JVal)} {nowIso : String}
    (h : steps.findIdx? (fun s => idEq s pathId) = some idx)
    (hr : requiredOk (mergeStep (steps.getD idx (.vobj [])) body pathId nowIso) = false) :
    putSteps steps pathId body nowIso
      = { status := 400, body := some msgRequired, steps := steps } := by
  simp only [putSteps, h, hr, Bool.not_false, if_true]

lemma putSteps_ok {steps : List JVal} {pathId : String} {idx : Nat}
    {body : List (String × JVal)} {nowIso : String}
    (h : steps.findIdx? (fun s => idEq s pathId) = some idx)
    (hr : requiredOk (mergeStep (steps.getD idx (.vobj [])) body pathId nowIso) = true) :
    putSteps steps pathId body nowIso
      = { status := 200,
          body := some (.vobj (renormFields
            (mergeStep (steps.getD idx (.vobj [])) body pathId nowIso))),
          steps := steps.set idx (.vobj (renormFields
            (mergeStep (steps.getD idx (.vobj [])) body pathId nowIso))) } := by
  simp only [putSteps, h, hr, Bool.not_true, Bool.false_eq_true, if_false]

lemma deleteStep_notfound {steps : List JVal} {pathId : String}
    (h : (steps.filter (fun s => !(idEq s pathId))).length = steps.length) :
    deleteStep steps pathId
      = { status := 404, body := some msgNotFound, steps := steps } := by
  simp [deleteStep, h]

lemma deleteStep_ok {steps : List JVal} {pathId : String}
    (h : ¬(steps.filter (fun s => !(idEq s pathId))).length = steps.length) :
    deleteStep steps pathId
      = { status := 204, body := none,
          steps := steps.filter (fun s => !(idEq s pathId)) } := by
  simp [deleteStep, h]

/-! ## C2: load on malformed stored content -/

/-- C2 counterexample: stored content that does not parse (corrupted text)
makes the load operation propagate the parse failure rather than return
the empty sequence, refuting the claim for corrupted content. -/
theorem readSteps_corrupted_content_fails :
    readSteps (.error "SyntaxError: Unexpected token") =
        .error "SyntaxError: Unexpected token" ∧
      readSteps (.error "SyntaxError: Unexpected token") ≠ .ok [] :=
  ⟨rfl, fun h => Except.noConfusion h⟩

/-- C2 (amended): stored content that parses to a document that is not a
sequence loads as the empty sequence; a parsed sequence loads as its
elements; content that fails to parse propagates the failure instead. -/
theorem readSteps_wrong_shape_empty :
    (∀ v : JVal, (∀ xs, v ≠ .varr xs) → readSteps (.ok v) = .ok []) ∧
      (∀ xs, readSteps (.ok (.varr xs)) = .ok xs) ∧
      (∀ e, readSteps (.error e) = .error e) := by
  refine ⟨fun v hv => ?_, fun xs => rfl, fun e => rfl⟩
  match v with
  | .vnull | .vstr _ | .vnum _ | .vbool _ | .vobj _ => rfl
  | .varr xs => exact absurd rfl (hv xs)

/-- Witness for readSteps_wrong_shape_empty at a concrete non-sequence
document. -/
theorem readSteps_wrong_shape_empty_witness :
    readSteps (.ok (.vobj [("a", .vnum 1)])) = .ok [] :=
  readSteps_wrong_shape_empty.1 (.vobj [("a", .vnum 1)]) (fun _ h => JVal.noConfusion h)

/-! ## C6: failure paths never save -/

/-- C6: on every failure path — create rejected with 400, update rejected
with 404 or 400, delete rejected with 404 — the persisted collection is
exactly the loaded one: no failing handler saves a modified sequence. -/
theorem failing_requests_leave_collection_unchanged :
    (∀ steps body nowMs rndHex nowIso,
        (postSteps steps body nowMs rndHex nowIso).status = 400 →
        (postSteps steps body nowMs rndHex nowIso).steps = steps) ∧
      (∀ steps pathId body nowIso,
        (putSteps steps pathId body nowIso).status = 404 ∨
            (putSteps steps pathId body nowIso).status = 400 →
        (putSteps steps pathId body nowIso).steps = steps) ∧
      (∀ steps pathId,
        (deleteStep steps pathId).status = 404 →
        (deleteStep steps pathId).steps = steps) := by
  refine ⟨fun steps body nowMs rndHex nowIso h => ?_,
    fun steps pathId body nowIso h => ?_, fun steps pathId h => ?_⟩
  · cases hc : requiredOk body with
    | false => rw [postSteps_fail steps nowMs rndHex nowIso hc]
    | true => rw [postSteps_ok steps nowMs rndHex nowIso hc] at h; cases h
  · cases hidx : steps.findIdx? (fun s => idEq s pathId) with
    | none => rw [putSteps_notfound body nowIso hidx]
    | some idx =>
      cases hr : requiredOk (mergeStep (steps.getD idx (.vobj [])) body pathId nowIso) with
      | false => rw [putSteps_invalid hidx hr]
      | true =>
        rw [putSteps_ok hidx hr] at h
        rcases h with h | h <;> cases h
  · by_cases hl : (steps.filter (fun s => !(idEq s pathId))).length = steps.length
    · rw [deleteStep_notfound hl]
    · rw [deleteStep_ok hl] at h; cases h

/-- Witness for the failure-path theorem at concrete failing requests: an
empty create body, an update and a delete against the empty collection. -/
theorem failing_requests_leave_collection_unchanged_witness :
    (postSteps [.vnull] [] 0 "" "t").status = 400 ∧
      (postSteps [.vnull] [] 0 "" "t").steps = [.vnull] ∧
      (putSteps [.vnull] "a" [] "t").status = 404 ∧
      (putSteps [.vnull] "a" [] "t").steps = [.vnull] ∧
      (deleteStep [.vnull] "a").status = 404 ∧
      (deleteStep [.vnull] "a").steps = [.vnull] :=
  ⟨rfl,
    failing_requests_leave_collection_unchanged.1 [.vnull] [] 0 "" "t" rfl,
    rfl,
    failing_requests_leave_collection_unchanged.2.1 [.vnull] "a" [] "t" (Or.inl rfl),
    rfl,
    failing_requests_leave_collection_unchanged.2.2 [.vnull] "a" rfl⟩

/-! ## Merged-record lookup lemmas for the update handler -/

lemma getF_mergeStep_id (existing : JVal) (body : List (String × JVal))
    (pathId nowIso : String) :
    getF (mergeStep existing body pathId nowIso) "id" = some (.vstr pathId) := by
  unfold mergeStep
  rw [getF_setF_ne _ _ _ _ (by decide), getF_setF_self]

lemma getF_mergeStep_updatedAt (existing : JVal) (body : List (String × JVal))
    (pathId nowIso : String) :
    getF (mergeStep existing body pathId nowIso) "updatedAt" = some (.vstr nowIso) :=
  getF_setF_self _ _ _

lemma getF_mergeStep_other (existing : JVal) (body : List (String × JVal))
    (pathId nowIso : String) (k : String) (h1 : k ≠ "id") (h2 : k ≠ "updatedAt") :
    getF (mergeStep existing body pathId nowIso) k
      = (getF body k).or (getF (objFields existing) k) := by
  unfold mergeStep
  rw [getF_setF_ne _ _ _ _ h2, getF_setF_ne _ _ _ _ h1, getF_spreadF]

lemma getF_renormFields_ne (fs : List (String × JVal)) (k : String)
    (h1 : k ≠ "commands") (h2 : k ≠ "vars") :
    getF (renormFields fs) k = getF fs k := by
  have step1 : ∀ m1 : List (String × JVal), getF m1 k = getF fs k →
      getF (match getF m1 "vars" with
        | none => m1
        | some v =>
          match normalizeVars v with
          | some ds => setF m1 "vars" (varsToJVal ds)
          | none => delF m1 "vars") k = getF fs k := by
    intro m1 hm1
    split
    · exact hm1
    · split
      · rw [getF_setF_ne _ _ _ _ h2]; exact hm1
      · rw [getF_delF_ne _ _ _ h2]; exact hm1
  simp only [renormFields]
  refine step1 _ ?_
  split
  · rfl
  · split
    · rw [getF_setF_ne _ _ _ _ h1]
    · rw [getF_delF_ne _ _ _ h1]

/-! ## C4: successful create -/

/-- C4: a create whose four required fields are present and truthy responds
201 with the new step, which carries the generated id and the createdAt
clock reading, and is prepended to the persisted sequence, so a subsequent
list returns the full sequence with the newest-created record first. -/
theorem create_prepends_and_lists_newest_first :
    ∀ steps body nowMs rndHex nowIso, requiredOk body = true →
      ∃ step,
        postSteps steps body nowMs rndHex nowIso
            = { status := 201, body := some step, steps := step :: steps } ∧
          jget step "id" = some (.vstr (newId nowMs rndHex)) ∧
          jget step "createdAt" = some (.vstr nowIso) ∧
          getSteps (postSteps steps body nowMs rndHex nowIso).steps
            = { status := 200, body := some (.varr (step :: steps)),
                steps := step :: steps } := by
  intro steps body nowMs rndHex nowIso h
  refine ⟨.vobj (newStepFields body nowMs rndHex nowIso),
    postSteps_ok steps nowMs rndHex nowIso h, ?_, ?_, ?_⟩
  · cases hcb : coerceCommands (getF body "commands") <;>
      cases hvb : normalizeVarsO (getF body "vars") <;>
        simp [newStepFields, jget, getF_append, getF_cons, getF_nil, hcb, hvb]
  · cases hcb : coerceCommands (getF body "commands") <;>
      cases hvb : normalizeVarsO (getF body "vars") <;>
        simp [newStepFields, jget, getF_append, getF_cons, getF_nil, hcb, hvb]
  · rw [postSteps_ok steps nowMs rndHex nowIso h]
    rfl

/-- Witness for the create theorem at a concrete request with all four
required fields supplied. -/
theorem create_prepends_and_lists_newest_first_witness :
    ∃ step,
      postSteps [] [("title", .vstr "T"), ("category", .vstr "C"),
            ("icon", .vstr "I"), ("content", .vstr "X")] 5 "ab" "t0"
          = { status := 201, body := some step, steps := [step] } ∧
        jget step "id" = some (.vstr (newId 5 "ab")) ∧
        jget step "createdAt" = some (.vstr "t0") ∧
        getSteps (postSteps [] [("title", .vstr "T"), ("category", .vstr "C"),
              ("icon", .vstr "I"), ("content", .vstr "X")] 5 "ab" "t0").steps
          = { status := 200, body := some (.varr [step]), steps := [step] } :=
  create_prepends_and_lists_newest_first [] _ 5 "ab" "t0" rfl

/-! ## C10: successful update frames every other record -/

/-- C10: a successful update of an existing id rewrites exactly the matched
position of the persisted sequence — the updated record (which carries the
path id) sits at the original position of the matched record — and every
record at any other position is untouched. -/
theorem update_keeps_position_and_frames_others :
    ∀ steps pathId body nowIso idx,
      steps.findIdx? (fun s => idEq s pathId) = some idx →
      (putSteps steps pathId body nowIso).status = 200 →
      ∃ u, (putSteps steps pathId body nowIso).steps = steps.set idx u ∧
        (putSteps steps pathId body nowIso).body = some u ∧
        jget u "id" = some (.vstr pathId) ∧
        ∀ j, j ≠ idx →
          (putSteps steps pathId body nowIso).steps.get? j = steps.get? j := by
  intro steps pathId body nowIso idx hidx hst
  cases hr : requiredOk (mergeStep (steps.getD idx (.vobj [])) body pathId nowIso) with
  | false => rw [putSteps_invalid hidx hr] at hst; simp at hst
  | true =>
    rw [putSteps_ok hidx hr]
    refine ⟨.vobj (renormFields (mergeStep (steps.getD idx (.vobj [])) body pathId nowIso)),
      rfl, rfl, ?_, ?_⟩
    · show getF (renormFields (mergeStep (steps.getD idx (.vobj [])) body pathId nowIso)) "id"
        = some (.vstr pathId)
      rw [getF_renormFields_ne _ _ (by decide) (by decide), getF_mergeStep_id]
    · intro j hj
      show (steps.set idx (JVal.vobj (renormFields
        (mergeStep (steps.getD idx (.vobj [])) body pathId nowIso)))).get? j = steps.get? j
      rw [List.get?_eq_getElem?, List.get?_eq_getElem?]
      exact List.getElem?_set_ne (fun hh => hj hh.symm)

/-- Witness for the update framing theorem on a two-record collection. -/
theorem update_keeps_position_and_frames_others_witness :
    ∃ u, (putSteps [.vobj [("id", .vstr "a"), ("title", .vstr "T"),
            ("category", .vstr "C"), ("icon", .vstr "I"), ("content", .vstr "X")],
          .vobj [("id", .vstr "b"), ("title", .vstr "U"), ("category", .vstr "D"),
            ("icon", .vstr "J"), ("content", .vstr "Y")]] "b" [("title", .vstr "nt")]
          "t1").steps
        = ([.vobj [("id", .vstr "a"), ("title", .vstr "T"), ("category", .vstr "C"),
            ("icon", .vstr "I"), ("content", .vstr "X")],
          .vobj [("id", .vstr "b"), ("title", .vstr "U"), ("category", .vstr "D"),
            ("icon", .vstr "J"), ("content", .vstr "Y")]].set 1 u) ∧
      (putSteps [.vobj [("id", .vstr "a"), ("title", .vstr "T"),
            ("category", .vstr "C"), ("icon", .vstr "I"), ("content", .vstr "X")],
          .vobj [("id", .vstr "b"), ("title", .vstr "U"), ("category", .vstr "D"),
            ("icon", .vstr "J"), ("content", .vstr "Y")]] "b" [("title", .vstr "nt")]
          "t1").body = some u ∧
      jget u "id" = some (.vstr "b") ∧
      ∀ j, j ≠ 1 →
        (putSteps [.vobj [("id", .vstr "a"), ("title", .vstr "T"),
              ("category", .vstr "C"), ("icon", .vstr "I"), ("content", .vstr "X")],
            .vobj [("id", .vstr "b"), ("title", .vstr "U"), ("category", .vstr "D"),
              ("icon", .vstr "J"), ("content", .vstr "Y")]] "b" [("title", .vstr "nt")]
            "t1").steps.get? j
          = [.vobj [("id", .vstr "a"), ("title", .vstr "T"), ("category", .vstr "C"),
              ("icon", .vstr "I"), ("content", .vstr "X")],
            .vobj [("id", .vstr "b"), ("title", .vstr "U"), ("category", .vstr "D"),
              ("icon", .vstr "J"), ("content", .vstr "Y")]].get? j :=
  update_keeps_position_and_frames_others _ "b" _ "t1" 1 rfl rfl

/-! ## C7: delete semantics -/

/-- The id a record exposes to the handlers, when it is a string. -/
def idOf (s : JVal) : Option String :=
  match jget s "id" with
  | some (.vstr t) => some t
  | _ => none

lemma idEq_iff_idOf (s : JVal) (pathId : String) :
    idEq s pathId = true ↔ idOf s = some pathId := by
  unfold idEq idOf
  cases h : jget s "id" with
  | none => simp
  | some v => cases v <;> simp

lemma filter_out_unique_match (steps : List JVal) (pathId : String)
    (hd : (steps.map idOf).Nodup) (hm : ∃ s ∈ steps, idEq s pathId = true) :
    (steps.filter (fun s => !(idEq s pathId))).length + 1 = steps.length := by
  induction steps with
  | nil => rcases hm with ⟨s, hs, _⟩; cases hs
  | cons a l ih =>
    rw [List.map_cons, List.nodup_cons] at hd
    cases ha : idEq a pathId with
    | true =>
      have haid : idOf a = some pathId := (idEq_iff_idOf a pathId).mp ha
      have hall : ∀ s ∈ l, idEq s pathId = false := by
        intro s hs
        cases hc : idEq s pathId with
        | false => rfl
        | true =>
          have hsid : idOf s = some pathId := (idEq_iff_idOf s pathId).mp hc
          have : idOf a ∈ l.map idOf := by
            rw [haid, ← hsid]
            exact List.mem_map_of_mem idOf hs
          exact absurd this hd.1
      rw [List.filter_cons, if_neg (by simp [ha])]
      rw [List.filter_eq_self.mpr (fun s hs => by simp [hall s hs])]
      rfl
    | false =>
      rw [List.filter_cons, if_pos (by simp [ha])]
      have hm' : ∃ s ∈ l, idEq s pathId = true := by
        rcases hm with ⟨s, hs, hmatch⟩
        rcases List.mem_cons.mp hs with rfl | hs'
        · rw [ha] at hmatch; cases hmatch
        · exact ⟨s, hs', hmatch⟩
      have := ih hd.2 hm'
      simp only [List.length_cons]
      omega

/-- C7 counterexample: on a collection holding two records with the same
id, one delete removes both of them (filter removes every match), not
exactly one, refuting the claim as stated for arbitrary collections. -/
theorem delete_removes_all_matches_counterexample :
    (deleteStep [.vobj [("id", .vstr "x")], .vobj [("id", .vstr "x")]] "x").status = 204 ∧
      (deleteStep [.vobj [("id", .vstr "x")], .vobj [("id", .vstr "x")]] "x").steps = [] ∧
      ([JVal.vobj [("id", .vstr "x")], JVal.vobj [("id", .vstr "x")]].length = 2) :=
  ⟨rfl, rfl, rfl⟩

/-- C7 (amended): delete removes every record matching the path id — which
is exactly one record whenever the record ids in the collection are
pairwise distinct — responds 204, keeps every non-matching record, and a
second delete of the same id responds 404 on the unchanged remainder. -/
theorem delete_removes_unique_match_then_404 :
    ∀ steps pathId, (steps.map idOf).Nodup →
      (∃ s ∈ steps, idEq s pathId = true) →
      (deleteStep steps pathId).status = 204 ∧
        (deleteStep steps pathId).steps
            = steps.filter (fun s => !(idEq s pathId)) ∧
        (deleteStep steps pathId).steps.length + 1 = steps.length ∧
        (∀ s ∈ steps, idEq s pathId = false → s ∈ (deleteStep steps pathId).steps) ∧
        (deleteStep (deleteStep steps pathId).steps pathId).status = 404 ∧
        (deleteStep (deleteStep steps pathId).steps pathId).steps
          = (deleteStep steps pathId).steps := by
  intro steps pathId hd hm
  have hlen := filter_out_unique_match steps pathId hd hm
  have hne : ¬(steps.filter (fun s => !(idEq s pathId))).length = steps.length := by omega
  have hself : ((steps.filter (fun s => !(idEq s pathId))).filter
      (fun s => !(idEq s pathId))) = steps.filter (fun s => !(idEq s pathId)) :=
    List.filter_eq_self.mpr (fun s hs => (List.mem_filter.mp hs).2)
  rw [deleteStep_ok hne]
  refine ⟨rfl, rfl, by simpa using hlen, ?_, ?_, ?_⟩
  · intro s hs hfail
    exact List.mem_filter.mpr ⟨hs, by simp [hfail]⟩
  · rw [deleteStep_notfound (by rw [hself])]
  · rw [deleteStep_notfound (by rw [hself])]

/-- Witness for the delete theorem on a two-record collection with
distinct ids. -/
theorem delete_removes_unique_match_then_404_witness :
    (deleteStep [.vobj [("id", .vstr "a")], .vobj [("id", .vstr "b")]] "a").status = 204 ∧
      (deleteStep [.vobj [("id", .vstr "a")], .vobj [("id", .vstr "b")]] "a").steps
          = [.vobj [("id", .vstr "a")], .vobj [("id", .vstr "b")]].filter
              (fun s => !(idEq s "a")) ∧
      (deleteStep [.vobj [("id", .vstr "a")], .vobj [("id", .vstr "b")]] "a").steps.length + 1
          = [JVal.vobj [("id", .vstr "a")], JVal.vobj [("id", .vstr "b")]].length ∧
      (∀ s ∈ [JVal.vobj [("id", .vstr "a")], JVal.vobj [("id", .vstr "b")]],
        idEq s "a" = false →
          s ∈ (deleteStep [.vobj [("id", .vstr "a")], .vobj [("id", .vstr "b")]] "a").steps) ∧
      (deleteStep (deleteStep [.vobj [("id", .vstr "a")],
          .vobj [("id", .vstr "b")]] "a").steps "a").status = 404 ∧
      (deleteStep (deleteStep [.vobj [("id", .vstr "a")],
            .vobj [("id", .vstr "b")]] "a").steps "a").steps
        = (deleteStep [.vobj [("id", .vstr "a")], .vobj [("id", .vstr "b")]] "a").steps :=
  delete_removes_unique_match_then_404 _ "a" (by decide)
    ⟨.vobj [("id", .vstr "a")], List.mem_cons_self _ _, rfl⟩

/-! ## Well-formed stored commands and vars, and renormalization lookups -/

/-- A string value. -/
def isStrVal : JVal → Bool
  | .vstr _ => true
  | _ => false

/-- The shape the API itself persists under commands: a non-empty array of
strings. -/
def wfCommandsVal : JVal → Bool
  | .varr xs => !(decide (xs.length = 0)) && xs.all isStrVal
  | _ => false

/-- The shape the API itself persists under vars: a non-empty array of
records with trim-fixed non-empty key and label and an optional string
placeholder, in stored key order. -/
def wfVarEntry : JVal → Bool
  | .vobj [("key", .vstr k), ("label", .vstr l)] =>
    (jsTrim k == k) && !(k == "") && (jsTrim l == l) && !(l == "")
  | .vobj [("key", .vstr k), ("label", .vstr l), ("placeholder", .vstr _)] =>
    (jsTrim k == k) && !(k == "") && (jsTrim l == l) && !(l == "")
  | _ => false

/-- Well-formed stored vars value. -/
def wfVarsVal : JVal → Bool
  | .varr xs => !(decide (xs.length = 0)) && xs.all wfVarEntry
  | _ => false

/-- A record whose optional commands and vars fields carry exactly the
shapes the API's own create and update handlers persist. -/
def normalizedStep : JVal → Bool
  | .vobj fs =>
    (match getF fs "commands" with
      | none => true
      | some c => wfCommandsVal c) &&
    (match getF fs "vars" with
      | none => true
      | some v => wfVarsVal v)
  | _ => false

lemma jstr_vstr_of_isStrVal {x : JVal} (h : isStrVal x = true) :
    JVal.vstr (jstr x) = x := by
  cases x <;> simp [isStrVal] at h ⊢
  rfl

lemma map_jstr_id {xs : List JVal} (hall : xs.all isStrVal = true) :
    xs.map (fun x => JVal.vstr (jstr x)) = xs := by
  induction xs with
  | nil => rfl
  | cons a l ih =>
    rw [List.all_cons, Bool.and_eq_true] at hall
    rw [List.map_cons, jstr_vstr_of_isStrVal hall.1, ih hall.2]

lemma coerceCommands_wf {c : JVal} (h : wfCommandsVal c = true) :
    coerceCommands (some c) = some c := by
  cases c <;> simp only [wfCommandsVal] at h
  case varr xs =>
    rw [Bool.and_eq_true] at h
    obtain ⟨hne, hall⟩ := h
    have hlen : ¬xs.length = 0 := by simpa using hne
    show (if xs.length = 0 then none
        else some (JVal.varr (xs.map (fun x => JVal.vstr (jstr x)))))
      = some (JVal.varr xs)
    rw [if_neg hlen, map_jstr_id hall]
  all_goals cases h

lemma coerceVar_wfEntry {x : JVal} (h : wfVarEntry x = true) :
    VarDef.toJVal (coerceVar x) = x ∧
      0 < (coerceVar x).key.length ∧ 0 < (coerceVar x).label.length := by
  unfold wfVarEntry at h
  split at h
  · next k l =>
    simp only [Bool.and_eq_true, beq_iff_eq, Bool.not_eq_true', beq_eq_false_iff_ne] at h
    obtain ⟨⟨⟨hk, hkne⟩, hl⟩, hlne⟩ := h
    have hc : coerceVar (.vobj [("key", .vstr k), ("label", .vstr l)])
        = ⟨k, l, none⟩ := by
      simp [coerceVar, jgetNN, jget, getF_cons, getF_nil, jstr, hk, hl]
    rw [hc]
    exact ⟨rfl, string_length_pos_of_ne hkne, string_length_pos_of_ne hlne⟩
  · next k l p =>
    simp only [Bool.and_eq_true, beq_iff_eq, Bool.not_eq_true', beq_eq_false_iff_ne] at h
    obtain ⟨⟨⟨hk, hkne⟩, hl⟩, hlne⟩ := h
    have hc : coerceVar (.vobj [("key", .vstr k), ("label", .vstr l),
        ("placeholder", .vstr p)]) = ⟨k, l, some p⟩ := by
      simp [coerceVar, jgetNN, jget, getF_cons, getF_nil, jstr, hk, hl]
    rw [hc]
    exact ⟨rfl, string_length_pos_of_ne hkne, string_length_pos_of_ne hlne⟩
  · cases h

lemma map_toJVal_coerceVar_id {xs : List JVal}
    (hall : ∀ x ∈ xs, wfVarEntry x = true) :
    xs.map (VarDef.toJVal ∘ coerceVar) = xs := by
  induction xs with
  | nil => rfl
  | cons a l ih =>
    rw [List.map_cons, Function.comp_apply,
      (coerceVar_wfEntry (hall a (List.mem_cons_self a l))).1,
      ih (fun x hx => hall x (List.mem_cons_of_mem a hx))]

lemma normalizeVars_wf {v : JVal} (h : wfVarsVal v = true) :
    ∃ ds, normalizeVars v = some ds ∧ varsToJVal ds = v := by
  cases v <;> simp only [wfVarsVal] at h
  case varr xs =>
    rw [Bool.and_eq_true] at h
    obtain ⟨hne, hall⟩ := h
    have hlen : ¬xs.length = 0 := by simpa using hne
    have hall' : ∀ x ∈ xs, wfVarEntry x = true := by
      intro x hx
      exact List.all_eq_true.mp hall x hx
    refine ⟨xs.map coerceVar, ?_, ?_⟩
    · rw [normalizeVars_varr, if_neg hlen]
      have hkeep : (xs.map coerceVar).filter
          (fun d => decide (0 < d.key.length) && decide (0 < d.label.length))
            = xs.map coerceVar := by
        refine List.filter_eq_self.mpr ?_
        intro d hd
        obtain ⟨x, hx, rfl⟩ := List.mem_map.mp hd
        obtain ⟨-, hk, hl⟩ := coerceVar_wfEntry (hall' x hx)
        simp [hk, hl]
      rw [hkeep, if_neg (by simpa using hlen)]
    · unfold varsToJVal
      rw [List.map_map, map_toJVal_coerceVar_id hall']
  all_goals cases h

lemma getF_delF_self (fs : List (String × JVal)) (k : String) :
    getF (delF fs k) k = none := by
  apply getF_eq_none_of_not_any
  rw [Bool.eq_false_iff]
  intro h
  obtain ⟨p, hp, hpk⟩ := List.any_eq_true.mp h
  obtain ⟨hpmem, hpkeep⟩ := List.mem_filter.mp hp
  simp [hpk] at hpkeep

lemma getF_renormFields_commands (fs : List (String × JVal)) :
    getF (renormFields fs) "commands"
      = (getF fs "commands").bind (fun c => coerceCommands (some c)) := by
  have hpres : ∀ m1 : List (String × JVal),
      getF (match getF m1 "vars" with
        | none => m1
        | some v =>
          match normalizeVars v with
          | some ds => setF m1 "vars" (varsToJVal ds)
          | none => delF m1 "vars") "commands" = getF m1 "commands" := by
    intro m1
    split
    · rfl
    · split
      · rw [getF_setF_ne _ _ _ _ (by decide)]
      · rw [getF_delF_ne _ _ _ (by decide)]
  simp only [renormFields]
  rw [hpres]
  split
  · next hc => rw [hc]; rfl
  · next c hc =>
    rw [hc]
    split
    · next c2 hc2 => rw [getF_setF_self, Option.some_bind, hc2]
    · next hc2 => rw [getF_delF_self, Option.some_bind, hc2]

lemma getF_renormFields_vars (fs : List (String × JVal)) :
    getF (renormFields fs) "vars"
      = (getF fs "vars").bind (fun v => (normalizeVars v).map varsToJVal) := by
  simp only [renormFields]
  have hm1 : ∀ m1 : List (String × JVal),
      (match getF fs "commands" with
        | none => fs
        | some c =>
          match coerceCommands (some c) with
          | some c2 => setF fs "commands" c2
          | none => delF fs "commands") = m1 →
      getF m1 "vars" = getF fs "vars" := by
    intro m1 hm
    rw [← hm]
    split
    · rfl
    · split
      · rw [getF_setF_ne _ _ _ _ (by decide)]
      · rw [getF_delF_ne _ _ _ (by decide)]
  rw [hm1 _ rfl]
  split
  · next hv =>
    rw [hm1 _ rfl, hv]
    rfl
  · next v hv =>
    split
    · next ds hds =>
      rw [getF_setF_self, hv, Option.some_bind, hds, Option.map_some']
    · next hds =>
      rw [getF_delF_self, hv, Option.some_bind, hds, Option.map_none']

lemma normalizedStep_vobj {s : JVal} (h : normalizedStep s = true) :
    ∃ fs, s = .vobj fs := by
  cases s <;> simp only [normalizedStep] at h
  case vobj fs => exact ⟨fs, rfl⟩
  all_goals cases h

lemma normalizedStep_commands {fs : List (String × JVal)}
    (h : normalizedStep (.vobj fs) = true) :
    ∀ c, getF fs "commands" = some c → wfCommandsVal c = true := by
  intro c hc
  simp only [normalizedStep, hc, Bool.and_eq_true] at h
  exact h.1

lemma normalizedStep_vars {fs : List (String × JVal)}
    (h : normalizedStep (.vobj fs) = true) :
    ∀ v, getF fs "vars" = some v → wfVarsVal v = true := by
  intro v hv
  simp only [normalizedStep, hv, Bool.and_eq_true] at h
  exact h.2

/-! ## C5: update merge semantics -/

/-- C5 counterexample: a top-level field present in the patch is not always
stored verbatim — a patch vars value is stored as its normalization (here
with the key trimmed), so it does not replace the existing field with the
patch's own value as the claim states. -/
theorem update_patch_vars_not_stored_verbatim :
    (putSteps [.vobj [("id", .vstr "a"), ("title", .vstr "T"),
        ("category", .vstr "C"), ("icon", .vstr "I"), ("content", .vstr "X"),
        ("createdAt", .vstr "t0")]] "a"
      [("vars", .varr [.vobj [("key", .vstr " p "), ("label", .vstr "L")]])]
      "t1").status = 200 ∧
    ((putSteps [.vobj [("id", .vstr "a"), ("title", .vstr "T"),
        ("category", .vstr "C"), ("icon", .vstr "I"), ("content", .vstr "X"),
        ("createdAt", .vstr "t0")]] "a"
      [("vars", .varr [.vobj [("key", .vstr " p "), ("label", .vstr "L")]])]
      "t1").body.map (fun u => jget u "vars"))
        = some (some (varsToJVal [⟨"p", "L", none⟩])) ∧
    getF [("vars", .varr [.vobj [("key", .vstr " p "), ("label", .vstr "L")]])] "vars"
        = some (.varr [.vobj [("key", .vstr " p "), ("label", .vstr "L")]]) ∧
    some (varsToJVal [⟨"p", "L", none⟩])
        ≠ some (JVal.varr [.vobj [("key", .vstr " p "), ("label", .vstr "L")]]) :=
  ⟨rfl, rfl, rfl, by simp [varsToJVal, VarDef.toJVal]⟩

/-- C5 (amended): for an update whose path id matches an existing record
that carries the shapes the API itself persists, and whose merged record
passes the required-field check, the stored result is a shallow merge in
which every top-level field present in the patch other than commands and
vars replaces the existing field verbatim, a patch commands or vars field
is stored as its renormalization, fields absent from the patch are
untouched (commands and vars because renormalizing an already-normalized
value is the identity), the id always equals the path id regardless of any
id in the patch, and updatedAt is set to the update clock reading. -/
theorem update_is_normalizing_shallow_merge :
    ∀ steps pathId body nowIso idx,
      steps.findIdx? (fun s => idEq s pathId) = some idx →
      normalizedStep (steps.getD idx (.vobj [])) = true →
      (putSteps steps pathId body nowIso).status = 200 →
      ∃ u, (putSteps steps pathId body nowIso).body = some (.vobj u) ∧
        (putSteps steps pathId body nowIso).steps = steps.set idx (.vobj u) ∧
        getF u "id" = some (.vstr pathId) ∧
        getF u "updatedAt" = some (.vstr nowIso) ∧
        (∀ k, k ≠ "id" → k ≠ "updatedAt" → k ≠ "commands" → k ≠ "vars" →
          getF u k = (getF body k).or (jget (steps.getD idx (.vobj [])) k)) ∧
        (getF body "commands" = none →
          getF u "commands" = jget (steps.getD idx (.vobj [])) "commands") ∧
        (getF body "vars" = none →
          getF u "vars" = jget (steps.getD idx (.vobj [])) "vars") ∧
        (∀ c, getF body "commands" = some c →
          getF u "commands" = coerceCommands (some c)) ∧
        (∀ v, getF body "vars" = some v →
          getF u "vars" = (normalizeVars v).map varsToJVal) := by
  intro steps pathId body nowIso idx hidx hwf hst
  obtain ⟨fs, hfs⟩ := normalizedStep_vobj hwf
  cases hr : requiredOk (mergeStep (steps.getD idx (.vobj [])) body pathId nowIso) with
  | false => rw [putSteps_invalid hidx hr] at hst; simp at hst
  | true =>
    rw [putSteps_ok hidx hr]
    refine ⟨renormFields (mergeStep (steps.getD idx (.vobj [])) body pathId nowIso),
      rfl, rfl, ?_, ?_, ?_, ?_, ?_, ?_, ?_⟩
    · rw [getF_renormFields_ne _ _ (by decide) (by decide), getF_mergeStep_id]
    · rw [getF_renormFields_ne _ _ (by decide) (by decide), getF_mergeStep_updatedAt]
    · intro k h1 h2 h3 h4
      rw [getF_renormFields_ne _ _ h3 h4, getF_mergeStep_other _ _ _ _ _ h1 h2, hfs]
      rfl
    · intro hb
      rw [getF_renormFields_commands,
        getF_mergeStep_other _ _ _ _ _ (by decide) (by decide), hb, Option.none_or, hfs]
      show (getF fs "commands").bind (fun c => coerceCommands (some c)) = getF fs "commands"
      cases hcase : getF fs "commands" with
      | none => rfl
      | some c =>
        rw [Option.some_bind,
          coerceCommands_wf (normalizedStep_commands (hfs ▸ hwf) c hcase)]
    · intro hb
      rw [getF_renormFields_vars,
        getF_mergeStep_other _ _ _ _ _ (by decide) (by decide), hb, Option.none_or, hfs]
      show (getF fs "vars").bind (fun v => (normalizeVars v).map varsToJVal)
        = getF fs "vars"
      cases hcase : getF fs "vars" with
      | none => rfl
      | some v =>
        obtain ⟨ds, hds, hback⟩ :=
          normalizeVars_wf (normalizedStep_vars (hfs ▸ hwf) v hcase)
        rw [Option.some_bind, hds, Option.map_some', hback]
    · intro c hb
      rw [getF_renormFields_commands,
        getF_mergeStep_other _ _ _ _ _ (by decide) (by decide), hb, Option.or_some,
        Option.some_bind]
    · intro v hb
      rw [getF_renormFields_vars,
        getF_mergeStep_other _ _ _ _ _ (by decide) (by decide), hb, Option.or_some,
        Option.some_bind]

/-- Witness for the amended update theorem on a concrete well-formed
record patched only in its title. -/
theorem update_is_normalizing_shallow_merge_witness :
    ∃ u, (putSteps [.vobj [("id", .vstr "a"), ("title", .vstr "T"),
          ("category", .vstr "C"), ("icon", .vstr "I"), ("content", .vstr "X"),
          ("commands", .varr [.vstr "ls"]),
          ("vars", .varr [.vobj [("key", .vstr "p"), ("label", .vstr "L")]]),
          ("createdAt", .vstr "t0")]] "a" [("title", .vstr "new")] "t1").body
            = some (.vobj u) ∧
      (putSteps [.vobj [("id", .vstr "a"), ("title", .vstr "T"),
          ("category", .vstr "C"), ("icon", .vstr "I"), ("content", .vstr "X"),
          ("commands", .varr [.vstr "ls"]),
          ("vars", .varr [.vobj [("key", .vstr "p"), ("label", .vstr "L")]]),
          ("createdAt", .vstr "t0")]] "a" [("title", .vstr "new")] "t1").steps
            = ([JVal.vobj [("id", .vstr "a"), ("title", .vstr "T"),
              ("category", .vstr "C"), ("icon", .vstr "I"), ("content", .vstr "X"),
              ("commands", .varr [.vstr "ls"]),
              ("vars", .varr [.vobj [("key", .vstr "p"), ("label", .vstr "L")]]),
              ("createdAt", .vstr "t0")]].set 0 (.vobj u)) ∧
      getF u "id" = some (.vstr "a") ∧
      getF u "updatedAt" = some (.vstr "t1") ∧
      (∀ k, k ≠ "id" → k ≠ "updatedAt" → k ≠ "commands" → k ≠ "vars" →
        getF u k = (getF [("title", JVal.vstr "new")] k).or
          (jget ([JVal.vobj [("id", .vstr "a"), ("title", .vstr "T"),
            ("category", .vstr "C"), ("icon", .vstr "I"), ("content", .vstr "X"),
            ("commands", .varr [.vstr "ls"]),
            ("vars", .varr [.vobj [("key", .vstr "p"), ("label", .vstr "L")]]),
            ("createdAt", .vstr "t0")]].getD 0 (.vobj [])) k)) ∧
      (getF [("title", JVal.vstr "new")] "commands" = none →
        getF u "commands" = jget ([JVal.vobj [("id", .vstr "a"), ("title", .vstr "T"),
          ("category", .vstr "C"), ("icon", .vstr "I"), ("content", .vstr "X"),
          ("commands", .varr [.vstr "ls"]),
          ("vars", .varr [.vobj [("key", .vstr "p"), ("label", .vstr "L")]]),
          ("createdAt", .vstr "t0")]].getD 0 (.vobj [])) "commands") ∧
      (getF [("title", JVal.vstr "new")] "vars" = none →
        getF u "vars" = jget ([JVal.vobj [("id", .vstr "a"), ("title", .vstr "T"),
          ("category", .vstr "C"), ("icon", .vstr "I"), ("content", .vstr "X"),
          ("commands", .varr [.vstr "ls"]),
          ("vars", .varr [.vobj [("key", .vstr "p"), ("label", .vstr "L")]]),
          ("createdAt", .vstr "t0")]].getD 0 (.vobj [])) "vars") ∧
      (∀ c, getF [("title", JVal.vstr "new")] "commands" = some c →
        getF u "commands" = coerceCommands (some c)) ∧
      (∀ v, getF [("title", JVal.vstr "new")] "vars" = some v →
        getF u "vars" = (normalizeVars v).map varsToJVal) :=
  update_is_normalizing_shallow_merge _ "a" _ "t1" 0 rfl (by decide) rfl

/-! ## C1: the persisted-field invariant -/

/-- The claim's invariant predicate: each of the four required fields is
present with a non-empty string value. -/
def origGoodStep (s : JVal) : Bool :=
  ["title", "category", "icon", "content"].all (fun k =>
    match jget s k with
    | some (.vstr t) => !(t == "")
    | _ => false)

/-- The invariant the code actually maintains: each of the four required
fields is present, holding either a string (create coerces, possibly to
the empty string) or a truthy value (update stores patch values
uncoerced). -/
def goodStep (s : JVal) : Bool :=
  ["title", "category", "icon", "content"].all (fun k =>
    match jget s k with
    | some v => isStrVal v || truthy v
    | none => false)

lemma goodStep_newStep (body : List (String × JVal)) (nowMs : Nat)
    (rndHex nowIso : String) :
    goodStep (.vobj (newStepFields body nowMs rndHex nowIso)) = true := by
  cases hcb : coerceCommands (getF body "commands") <;>
    cases hvb : normalizeVarsO (getF body "vars") <;>
      simp [goodStep, newStepFields, jget, getF_append, getF_cons, getF_nil,
        hcb, hvb, isStrVal]

lemma goodStep_of_requiredOk {m : List (String × JVal)}
    (h : requiredOk m = true) : goodStep (.vobj (renormFields m)) = true := by
  unfold requiredOk at h
  simp only [Bool.and_eq_true] at h
  obtain ⟨⟨⟨ht, hc⟩, hi⟩, hco⟩ := h
  have hk : ∀ k, k ≠ "commands" → k ≠ "vars" → truthyO (getF m k) = true →
      (match getF (renormFields m) k with
        | some v => isStrVal v || truthy v
        | none => false) = true := by
    intro k h1 h2 hth
    rw [getF_renormFields_ne _ _ h1 h2]
    cases hg : getF m k with
    | none => rw [hg] at hth; cases hth
    | some v =>
      rw [hg] at hth
      simp only [truthyO] at hth
      simp [hth]
  have g1 := hk "title" (by decide) (by decide) ht
  have g2 := hk "category" (by decide) (by decide) hc
  have g3 := hk "icon" (by decide) (by decide) hi
  have g4 := hk "content" (by decide) (by decide) hco
  simp [goodStep, jget, g1, g2, g3, g4]

lemma goodStep_preserved (st : List JVal) (op : Op)
    (h : st.all goodStep = true) : (applyOp st op).all goodStep = true := by
  cases op with
  | opost body nowMs rndHex nowIso =>
    show ((postSteps st body nowMs rndHex nowIso).steps).all goodStep = true
    cases hr : requiredOk body with
    | false => rw [postSteps_fail st nowMs rndHex nowIso hr]; exact h
    | true =>
      rw [postSteps_ok st nowMs rndHex nowIso hr]
      rw [List.all_cons, goodStep_newStep, Bool.true_and]
      exact h
  | oput pathId body nowIso =>
    show ((putSteps st pathId body nowIso).steps).all goodStep = true
    cases hidx : st.findIdx? (fun s => idEq s pathId) with
    | none => rw [putSteps_notfound body nowIso hidx]; exact h
    | some idx =>
      cases hr : requiredOk (mergeStep (st.getD idx (.vobj [])) body pathId nowIso) with
      | false => rw [putSteps_invalid hidx hr]; exact h
      | true =>
        rw [putSteps_ok hidx hr]
        rw [List.all_eq_true]
        intro x hx
        rcases List.mem_or_eq_of_mem_set hx with hmem | rfl
        · exact List.all_eq_true.mp h x hmem
        · exact goodStep_of_requiredOk hr
  | odel pathId =>
    show ((deleteStep st pathId).steps).all goodStep = true
    by_cases hl : (st.filter (fun s => !(idEq s pathId))).length = st.length
    · rw [deleteStep_notfound hl]; exact h
    · rw [deleteStep_ok hl]
      rw [List.all_eq_true]
      intro x hx
      exact List.all_eq_true.mp h x (List.mem_of_mem_filter hx)

/-- C1 counterexample: a create whose title is the truthy empty array
passes the required-field check, and the persisted step stores the empty
string as its title, so the persisted collection reached from the empty
one violates the non-empty-string invariant as claimed. -/
theorem create_truthy_array_title_stores_empty_string :
    (runOps [.opost [("title", .varr []), ("category", .vstr "C"),
        ("icon", .vstr "I"), ("content", .vstr "X")] 0 "" "t0"])
      = [.vobj [("id", .vstr "0-"), ("title", .vstr ""), ("category", .vstr "C"),
          ("icon", .vstr "I"), ("content", .vstr "X"), ("createdAt", .vstr "t0")]] ∧
    (runOps [.opost [("title", .varr []), ("category", .vstr "C"),
        ("icon", .vstr "I"), ("content", .vstr "X")] 0 "" "t0"]).all origGoodStep
      = false :=
  ⟨rfl, rfl⟩

/-- C1 (amended): every step in any collection reachable from the empty
collection through the API's operations has its four required fields
present, each holding a string or a truthy value.  (Non-emptiness can fail:
a truthy array input is coerced to a possibly empty string on create; and
strings can fail: update stores truthy patch values without coercion.) -/
theorem all_persisted_steps_have_required_fields :
    ∀ ops, (runOps ops).all goodStep = true := by
  have hfold : ∀ ops st, st.all goodStep = true →
      (List.foldl applyOp st ops).all goodStep = true := by
    intro ops
    induction ops with
    | nil => intro st h; exact h
    | cons o os ih =>
      intro st h
      rw [List.foldl_cons]
      exact ih _ (goodStep_preserved st o h)
  intro ops
  exact hfold ops [] rfl

/-! ## C8: id generation -/

lemma digitChar_isDigit {m : Nat} (h : m < 10) : (Nat.digitChar m).isDigit = true := by
  have hall : ∀ m, m < 10 → (Nat.digitChar m).isDigit = true := by decide
  exact hall m h

lemma digitChar_val {m : Nat} (h : m < 10) : (Nat.digitChar m).toNat - 48 = m := by
  have hall : ∀ m, m < 10 → (Nat.digitChar m).toNat - 48 = m := by decide
  exact hall m h

lemma toDigitsCore_digits :
    ∀ (f n : Nat) (acc : List Char), (∀ c ∈ acc, c.isDigit = true) →
      ∀ c ∈ Nat.toDigitsCore 10 f n acc, c.isDigit = true := by
  intro f
  induction f with
  | zero =>
    intro n acc hacc c hc
    exact hacc c hc
  | succ f ih =>
    intro n acc hacc c hc
    simp only [Nat.toDigitsCore] at hc
    by_cases hn : n / 10 = 0
    · rw [if_pos hn] at hc
      rcases List.mem_cons.mp hc with rfl | hmem
      · exact digitChar_isDigit (Nat.mod_lt n (by norm_num))
      · exact hacc c hmem
    · rw [if_neg hn] at hc
      refine ih (n / 10) (Nat.digitChar (n % 10) :: acc) ?_ c hc
      intro d hd
      rcases List.mem_cons.mp hd with rfl | hmem
      · exact digitChar_isDigit (Nat.mod_lt n (by norm_num))
      · exact hacc d hmem

lemma repr_chars_digits (n : Nat) : ∀ c ∈ (Nat.repr n).data, c.isDigit = true := by
  intro c hc
  exact toDigitsCore_digits (n + 1) n [] (by intro d hd; cases hd) c hc

lemma toDigitsCore_append :
    ∀ (f n : Nat) (acc : List Char),
      Nat.toDigitsCore 10 f n acc = Nat.toDigitsCore 10 f n [] ++ acc := by
  intro f
  induction f with
  | zero => intro n acc; rfl
  | succ f ih =>
    intro n acc
    simp only [Nat.toDigitsCore]
    by_cases hn : n / 10 = 0
    · rw [if_pos hn, if_pos hn]
      rfl
    · rw [if_neg hn, if_neg hn, ih (n / 10) [Nat.digitChar (n % 10)],
        ih (n / 10) (Nat.digitChar (n % 10) :: acc), List.append_assoc]
      rfl

/-- Decimal interpretation of a digit-character list, most significant
first. -/
def digitsVal (l : List Char) : Nat :=
  l.foldl (fun a c => a * 10 + (c.toNat - 48)) 0

lemma digitsVal_snoc (l : List Char) (c : Char) :
    digitsVal (l ++ [c]) = digitsVal l * 10 + (c.toNat - 48) := by
  unfold digitsVal
  rw [List.foldl_append]
  rfl

lemma toDigitsCore_val : ∀ (f n : Nat), n < f →
    digitsVal (Nat.toDigitsCore 10 f n []) = n := by
  intro f
  induction f with
  | zero => intro n h; omega
  | succ f ih =>
    intro n h
    simp only [Nat.toDigitsCore]
    by_cases hn : n / 10 = 0
    · rw [if_pos hn]
      have hn10 : n < 10 := by omega
      show 0 * 10 + ((Nat.digitChar (n % 10)).toNat - 48) = n
      have := digitChar_val (Nat.mod_lt n (by norm_num) : n % 10 < 10)
      omega
    · rw [if_neg hn, toDigitsCore_append f (n / 10) [Nat.digitChar (n % 10)],
        digitsVal_snoc]
      have hdiv : n / 10 < f := by omega
      rw [ih (n / 10) hdiv, digitChar_val (Nat.mod_lt n (by norm_num) : n % 10 < 10)]
      omega

lemma digitsVal_repr (n : Nat) : digitsVal (Nat.repr n).data = n := by
  show digitsVal (Nat.toDigits 10 n).asString.data = n
  rw [show (Nat.toDigits 10 n).asString.data = Nat.toDigits 10 n from rfl]
  exact toDigitsCore_val (n + 1) n (Nat.lt_succ_self n)

lemma repr_injective {a b : Nat} (h : Nat.repr a = Nat.repr b) : a = b := by
  have := congrArg (fun s => digitsVal s.data) h
  simpa [digitsVal_repr] using this

lemma append_dash_inj :
    ∀ (s1 s2 r1 r2 : List Char), '-' ∉ s1 → '-' ∉ s2 →
      s1 ++ '-' :: r1 = s2 ++ '-' :: r2 → s1 = s2 ∧ r1 = r2 := by
  intro s1
  induction s1 with
  | nil =>
    intro s2 r1 r2 h1 h2 he
    cases s2 with
    | nil => simpa using he
    | cons b bs =>
      rw [List.nil_append, List.cons_append, List.cons.injEq] at he
      exact absurd (he.1 ▸ List.mem_cons_self b bs) h2
  | cons a as ih =>
    intro s2 r1 r2 h1 h2 he
    cases s2 with
    | nil =>
      rw [List.nil_append, List.cons_append, List.cons.injEq] at he
      exact absurd (he.1.symm ▸ List.mem_cons_self a as) h1
    | cons b bs =>
      rw [List.cons_append, List.cons_append, List.cons.injEq] at he
      obtain ⟨hab, htail⟩ := he
      have h1' : '-' ∉ as := fun hm => h1 (List.mem_cons_of_mem a hm)
      have h2' : '-' ∉ bs := fun hm => h2 (List.mem_cons_of_mem b hm)
      obtain ⟨hs, hr⟩ := ih bs r1 r2 h1' h2' htail
      exact ⟨by rw [hab, hs], hr⟩

lemma newId_inj {t1 t2 : Nat} {f1 f2 : String}
    (h : newId t1 f1 = newId t2 f2) : t1 = t2 ∧ f1 = f2 := by
  unfold newId at h
  have hd : (Nat.repr t1).data ++ '-' :: f1.data
      = (Nat.repr t2).data ++ '-' :: f2.data := by
    have h2 := congrArg String.data h
    simpa [String.data_append] using h2
  have hdash : ∀ t : Nat, '-' ∉ (Nat.repr t).data := by
    intro t hm
    have := repr_chars_digits t '-' hm
    simp [Char.isDigit] at this
  obtain ⟨hs, hr⟩ := append_dash_inj _ _ _ _ (hdash t1) (hdash t2) hd
  refine ⟨repr_injective ?_, ?_⟩
  · cases hrepr1 : Nat.repr t1
    cases hrepr2 : Nat.repr t2
    rw [hrepr1, hrepr2] at hs
    simp_all
  · cases hf1 : f1
    cases hf2 : f2
    rw [hf1, hf2] at hr
    simp_all

lemma set_of_get?_eq {α : Type} :
    ∀ (l : List α) (i : Nat) (a : α), l.get? i = some a → l.set i a = l := by
  intro l
  induction l with
  | nil => intro i a h; cases h
  | cons x xs ih =>
    intro i a h
    cases i with
    | zero =>
      rw [List.get?_cons_zero, Option.some.injEq] at h
      rw [List.set_cons_zero, h]
    | succ j =>
      rw [List.get?_cons_succ] at h
      rw [List.set_cons_succ, ih j a h]

lemma findIdx?_matched (steps : List JVal) (pathId : String) (idx : Nat)
    (h : steps.findIdx? (fun s => idEq s pathId) = some idx) :
    idx < steps.length ∧ steps.get? idx = some (steps.getD idx (.vobj [])) ∧
      idEq (steps.getD idx (.vobj [])) pathId = true := by
  obtain ⟨hlt, hp, -⟩ := List.findIdx?_eq_some_iff_getElem.mp h
  have hg : steps.get? idx = some steps[idx] := by
    rw [List.get?_eq_getElem?]
    exact List.getElem?_eq_getElem hlt
  have hgd : steps.getD idx (.vobj []) = steps[idx] := by
    rw [List.getD_eq_getElem?_getD, List.getElem?_eq_getElem hlt]
    rfl
  exact ⟨hlt, by rw [hgd]; exact hg, by rw [hgd]; exact hp⟩

/-- The id generated by each create in a trace, in order. -/
def opNewId : Op → Option String
  | .opost _ nowMs rndHex _ => some (newId nowMs rndHex)
  | _ => none

/-- The ids handed out by the creates of a trace. -/
def postIds (ops : List Op) : List String :=
  ops.filterMap opNewId

lemma idOf_newStep (body : List (String × JVal)) (nowMs : Nat)
    (rndHex nowIso : String) :
    idOf (.vobj (newStepFields body nowMs rndHex nowIso))
      = some (newId nowMs rndHex) := rfl

lemma idOf_putResult (ex : JVal) (body : List (String × JVal))
    (pathId nowIso : String) :
    idOf (.vobj (renormFields (mergeStep ex body pathId nowIso))) = some pathId := by
  unfold idOf
  show (match jget (.vobj (renormFields (mergeStep ex body pathId nowIso))) "id" with
    | some (.vstr t) => some t
    | _ => none) = some pathId
  rw [show jget (.vobj (renormFields (mergeStep ex body pathId nowIso))) "id"
      = getF (renormFields (mergeStep ex body pathId nowIso)) "id" from rfl,
    getF_renormFields_ne _ _ (by decide) (by decide), getF_mergeStep_id]

lemma ids_nodup_invariant :
    ∀ (ops : List Op) (st : List JVal) (used : List String),
      (st.map idOf).Nodup →
      (∀ i ∈ st.map idOf, ∃ s, i = some s ∧ s ∈ used) →
      (postIds ops).Nodup →
      (∀ s ∈ postIds ops, s ∉ used) →
      ((ops.foldl applyOp st).map idOf).Nodup ∧
        (∀ i ∈ (ops.foldl applyOp st).map idOf,
          ∃ s, i = some s ∧ s ∈ used ++ postIds ops) := by
  intro ops
  induction ops with
  | nil =>
    intro st used hnd hmem hpn hpu
    refine ⟨hnd, fun i hi => ?_⟩
    obtain ⟨s, hs, hm⟩ := hmem i hi
    exact ⟨s, hs, by simp [postIds, hm]⟩
  | cons op ops ih =>
    intro st used hnd hmem hpn hpu
    rw [List.foldl_cons]
    cases op with
    | opost body nowMs rndHex nowIso =>
      have hpids : postIds (Op.opost body nowMs rndHex nowIso :: ops)
          = newId nowMs rndHex :: postIds ops := rfl
      rw [hpids] at hpn hpu
      rw [List.nodup_cons] at hpn
      have hu1 : newId nowMs rndHex ∉ used := hpu _ (List.mem_cons_self _ _)
      have hu2 : ∀ s ∈ postIds ops, s ∉ (newId nowMs rndHex :: used) := by
        intro s hs
        rw [List.mem_cons]
        rintro (rfl | hmem')
        · exact hpn.1 hs
        · exact hpu s (List.mem_cons_of_mem _ hs) hmem'
      have hcons : ∀ i ∈ st.map idOf, ∃ s, i = some s ∧
          s ∈ (newId nowMs rndHex :: used) := by
        intro i hi
        obtain ⟨s, hs, hm⟩ := hmem i hi
        exact ⟨s, hs, List.mem_cons_of_mem _ hm⟩
      simp only [applyOp]
      cases hr : requiredOk body with
      | false =>
        rw [postSteps_fail st nowMs rndHex nowIso hr]
        obtain ⟨hc1, hc2⟩ := ih st (newId nowMs rndHex :: used) hnd hcons hpn.2 hu2
        refine ⟨hc1, fun i hi => ?_⟩
        obtain ⟨s, hs, hm⟩ := hc2 i hi
        refine ⟨s, hs, ?_⟩
        rw [hpids, List.mem_append, List.mem_cons]
        rw [List.mem_append] at hm
        rw [List.mem_cons] at hm
        tauto
      | true =>
        rw [postSteps_ok st nowMs rndHex nowIso hr]
        have hnd' : ((JVal.vobj (newStepFields body nowMs rndHex nowIso) :: st).map
            idOf).Nodup := by
          rw [List.map_cons, List.nodup_cons, idOf_newStep]
          refine ⟨fun hmem' => ?_, hnd⟩
          obtain ⟨s, hs, hm⟩ := hmem _ hmem'
          rw [Option.some.injEq] at hs
          exact hu1 (hs ▸ hm)
        have hmem' : ∀ i ∈ (JVal.vobj (newStepFields body nowMs rndHex nowIso)
            :: st).map idOf, ∃ s, i = some s ∧ s ∈ (newId nowMs rndHex :: used) := by
          intro i hi
          rw [List.map_cons, List.mem_cons] at hi
          rcases hi with rfl | hi
          · exact ⟨newId nowMs rndHex, idOf_newStep body nowMs rndHex nowIso,
              List.mem_cons_self _ _⟩
          · exact hcons i hi
        obtain ⟨hc1, hc2⟩ := ih _ (newId nowMs rndHex :: used) hnd' hmem' hpn.2 hu2
        refine ⟨hc1, fun i hi => ?_⟩
        obtain ⟨s, hs, hm⟩ := hc2 i hi
        refine ⟨s, hs, ?_⟩
        rw [hpids, List.mem_append, List.mem_cons]
        rw [List.mem_append] at hm
        rw [List.mem_cons] at hm
        tauto
    | oput pathId body nowIso =>
      have hpids : postIds (Op.oput pathId body nowIso :: ops) = postIds ops :=
        List.filterMap_cons_none rfl
      rw [hpids] at hpn hpu
      simp only [applyOp]
      cases hidx : st.findIdx? (fun s => idEq s pathId) with
      | none =>
        rw [putSteps_notfound body nowIso hidx]
        rw [show postIds (Op.oput pathId body nowIso :: ops) = postIds ops from hpids]
        exact ih st used hnd hmem hpn hpu
      | some idx =>
        cases hr : requiredOk (mergeStep (st.getD idx (.vobj [])) body pathId nowIso) with
        | false =>
          rw [putSteps_invalid hidx hr]
          rw [show postIds (Op.oput pathId body nowIso :: ops) = postIds ops from hpids]
          exact ih st used hnd hmem hpn hpu
        | true =>
          rw [putSteps_ok hidx hr]
          obtain ⟨hlt, hget, hmatch⟩ := findIdx?_matched st pathId idx hidx
          have hidsame : (st.set idx (JVal.vobj (renormFields
              (mergeStep (st.getD idx (.vobj [])) body pathId nowIso)))).map idOf
                = st.map idOf := by
            rw [List.map_set, idOf_putResult]
            apply set_of_get?_eq
            rw [List.get?_map, hget, Option.map_some']
            rw [(idEq_iff_idOf _ _).mp hmatch]
          obtain ⟨hc1, hc2⟩ := ih (st.set idx (JVal.vobj (renormFields
              (mergeStep (st.getD idx (.vobj [])) body pathId nowIso)))) used
            (by rw [hidsame]; exact hnd)
            (by rw [hidsame]; exact hmem)
            hpn hpu
          refine ⟨hc1, fun i hi => ?_⟩
          obtain ⟨s, hs, hm⟩ := hc2 i hi
          refine ⟨s, hs, ?_⟩
          rw [hpids]
          exact hm
    | odel pathId =>
      have hpids : postIds (Op.odel pathId :: ops) = postIds ops :=
        List.filterMap_cons_none rfl
      rw [hpids] at hpn hpu
      simp only [applyOp]
      by_cases hl : (st.filter (fun s => !(idEq s pathId))).length = st.length
      · rw [deleteStep_notfound hl]
        rw [show postIds (Op.odel pathId :: ops) = postIds ops from hpids]
        exact ih st used hnd hmem hpn hpu
      · rw [deleteStep_ok hl]
        have hsub : ((st.filter (fun s => !(idEq s pathId))).map idOf).Sublist
            (st.map idOf) := (List.filter_sublist st).map idOf
        have hnd' := hnd.sublist hsub
        have hmem' : ∀ i ∈ (st.filter (fun s => !(idEq s pathId))).map idOf,
            ∃ s, i = some s ∧ s ∈ used := by
          intro i hi
          rw [List.mem_map] at hi
          obtain ⟨x, hx, rfl⟩ := hi
          exact hmem _ (List.mem_map_of_mem idOf (List.mem_of_mem_filter hx))
        rw [show postIds (Op.odel pathId :: ops) = postIds ops from hpids]
        exact ih _ used hnd' hmem' hpn hpu

/-- C8 counterexample: two creates in the same millisecond whose random
draws coincide receive the same generated id, and the collection then
holds a duplicated id — the generator guarantees nothing under
same-millisecond equal randomness. -/
theorem same_millisecond_same_random_collides :
    newId 5 "ab" = newId 5 "ab" ∧
      (runOps [.opost [("title", .vstr "T"), ("category", .vstr "C"),
            ("icon", .vstr "I"), ("content", .vstr "X")] 5 "ab" "t0",
          .opost [("title", .vstr "T"), ("category", .vstr "C"),
            ("icon", .vstr "I"), ("content", .vstr "X")] 5 "ab" "t1"]).map idOf
        = [some "5-ab", some "5-ab"] ∧
      ¬ ((runOps [.opost [("title", .vstr "T"), ("category", .vstr "C"),
            ("icon", .vstr "I"), ("content", .vstr "X")] 5 "ab" "t0",
          .opost [("title", .vstr "T"), ("category", .vstr "C"),
            ("icon", .vstr "I"), ("content", .vstr "X")] 5 "ab" "t1"]).map idOf).Nodup := by
  refine ⟨rfl, rfl, ?_⟩
  have h : (runOps [.opost [("title", .vstr "T"), ("category", .vstr "C"),
        ("icon", .vstr "I"), ("content", .vstr "X")] 5 "ab" "t0",
      .opost [("title", .vstr "T"), ("category", .vstr "C"),
        ("icon", .vstr "I"), ("content", .vstr "X")] 5 "ab" "t1"]).map idOf
      = [some "5-ab", some "5-ab"] := rfl
  rw [h]
  decide

/-- C8 (amended): two create operations receive distinct ids whenever
their (millisecond timestamp, random hex suffix) pairs differ — in
particular whenever the timestamps differ, and under same-millisecond
timing exactly when the random suffixes differ; and along any trace whose
creates draw pairwise-distinct ids, the persisted collection's ids are
pairwise distinct and every one of them was handed out by a create (never
recycled from elsewhere). -/
theorem distinct_rng_and_clock_give_unique_ids :
    (∀ t1 f1 t2 f2, (t1, f1) ≠ (t2, f2) → newId t1 f1 ≠ newId t2 f2) ∧
      (∀ ops, (postIds ops).Nodup →
        ((runOps ops).map idOf).Nodup ∧
          ∀ i ∈ (runOps ops).map idOf, ∃ s, i = some s ∧ s ∈ postIds ops) := by
  constructor
  · intro t1 f1 t2 f2 hne he
    refine hne ?_
    obtain ⟨h1, h2⟩ := newId_inj he
    rw [h1, h2]
  · intro ops hnd
    obtain ⟨h1, h2⟩ := ids_nodup_invariant ops [] []
      (by simp) (by simp) hnd (by simp)
    refine ⟨h1, fun i hi => ?_⟩
    obtain ⟨s, hs, hm⟩ := h2 i hi
    exact ⟨s, hs, by simpa using hm⟩

/-- Witness for the id-uniqueness theorem: distinct random suffixes in the
same millisecond give distinct ids, and a concrete two-create trace with
distinct draws yields a duplicate-free collection. -/
theorem distinct_rng_and_clock_give_unique_ids_witness :
    newId 1 "a" ≠ newId 1 "b" ∧
      (((runOps [.opost [("title", .vstr "T"), ("category", .vstr "C"),
            ("icon", .vstr "I"), ("content", .vstr "X")] 1 "a" "t0",
          .opost [("title", .vstr "T"), ("category", .vstr "C"),
            ("icon", .vstr "I"), ("content", .vstr "X")] 2 "a" "t1"]).map idOf).Nodup ∧
        ∀ i ∈ (runOps [.opost [("title", .vstr "T"), ("category", .vstr "C"),
              ("icon", .vstr "I"), ("content", .vstr "X")] 1 "a" "t0",
            .opost [("title", .vstr "T"), ("category", .vstr "C"),
              ("icon", .vstr "I"), ("content", .vstr "X")] 2 "a" "t1"]).map idOf,
          ∃ s, i = some s ∧ s ∈ postIds [.opost [("title", .vstr "T"),
              ("category", .vstr "C"), ("icon", .vstr "I"), ("content", .vstr "X")]
              1 "a" "t0",
            .opost [("title", .vstr "T"), ("category", .vstr "C"),
              ("icon", .vstr "I"), ("content", .vstr "X")] 2 "a" "t1"]) :=
  ⟨distinct_rng_and_clock_give_unique_ids.1 1 "a" 1 "b" (by decide),
    distinct_rng_and_clock_give_unique_ids.2 _ (by decide)⟩
